import Mathlib

/-!
Verification development for the weekly stats aggregation and caching
pipeline of the Mattermost GitHub activity-reports plugin
(`server/plugin.go`).

Conventions of the embedding:
* Go strings are modeled as Lean `String`; Go compares strings bytewise
  and every string the week pipeline builds is ASCII, where bytewise and
  character-code comparison coincide.
* Go `int` is modeled as `Int`; no arithmetic in the embedded code can
  overflow 64 bits, because every counter is incremented at most once per
  element of a decoded slice.
* A Go `time.Time` at midnight UTC is represented by its day number
  (days since 1970-01-01).
* Impure inputs (the wall clock, the GitHub HTTP responses, the KV store
  and the Mattermost user directory) are passed as explicit parameters.
-/

/-- Decimal digit characters of a natural number, most significant digit
first, with explicit fuel so that the kernel can evaluate it. -/
def natCharsAux : Nat → Nat → List Char
  | 0, _ => []
  | fuel + 1, n =>
    if n < 10 then [Char.ofNat (48 + n)]
    else natCharsAux fuel (n / 10) ++ [Char.ofNat (48 + n % 10)]

/-- Decimal digit characters of a natural number, most significant first. -/
def natChars (n : Nat) : List Char := natCharsAux (n + 1) n

/-- Decimal string of an integer, as Go fmt prints with the `%d` verb. -/
def intStr (n : Int) : String :=
  if n < 0 then ⟨'-' :: natChars (-n).toNat⟩ else ⟨natChars n.toNat⟩

/-- Go `%02d`: left-pad the decimal form with a zero to width 2 (the sign
counts toward the width, as in Go). -/
def pad2 (n : Int) : String :=
  if (intStr n).length < 2 then "0" ++ intStr n else intStr n

/-- Week label `fmt.Sprintf("%d-W%02d", year, wn)` as built by
`handleGetStats` and `nextWeek` in `plugin.go`. -/
def formatWeek (y w : Int) : String :=
  intStr y ++ "-W" ++ pad2 w

/-- Decimal digit test on a character, by character code. -/
def isDigitChar (c : Char) : Bool := 48 ≤ c.toNat && c.toNat ≤ 57

/-- ASCII whitespace as skipped by a Go scan verb. -/
def isSpaceChar (c : Char) : Bool :=
  c.toNat = 32 || (9 ≤ c.toNat && c.toNat ≤ 13)

/-- Consume a run of decimal digits, accumulating their value. -/
def takeDigitsAux : List Char → Nat → Nat × List Char
  | [], acc => (acc, [])
  | c :: rest, acc =>
    if isDigitChar c then takeDigitsAux rest (acc * 10 + (c.toNat - 48))
    else (acc, c :: rest)

/-- Leading-whitespace skip performed by a `%d` verb of Go scanning. -/
def skipSpaces (cs : List Char) : List Char := cs.dropWhile isSpaceChar

/-- Go Sscanf `%d`: skip spaces, then an optional sign followed by at least
one digit; `none` when the input does not match the verb. -/
def scanInt (cs : List Char) : Option (Int × List Char) :=
  match skipSpaces cs with
  | [] => none
  | c :: rest =>
    if c = '-' then
      match rest with
      | [] => none
      | d :: _ =>
        if isDigitChar d then
          some (-(((takeDigitsAux rest 0).1 : Nat) : Int), (takeDigitsAux rest 0).2)
        else none
    else if c = '+' then
      match rest with
      | [] => none
      | d :: _ =>
        if isDigitChar d then
          some (((takeDigitsAux rest 0).1 : Nat), (takeDigitsAux rest 0).2)
        else none
    else if isDigitChar c then
      some (((takeDigitsAux (c :: rest) 0).1 : Nat), (takeDigitsAux (c :: rest) 0).2)
    else none

/-- Literal character match of a Go scan format. -/
def scanLit (c : Char) : List Char → Option (List Char)
  | [] => none
  | d :: rest => if d = c then some rest else none

/-- The `fmt.Sscanf(week, "%d-W%d", &year, &wn)` call of `plugin.go`: the
two scanned integers plus whether both verbs matched. The Go callers ignore
the error, so a variable not reached by the scan keeps its zero value. -/
def scanWeek (s : String) : Int × Int × Bool :=
  match scanInt s.data with
  | none => (0, 0, false)
  | some (y, r1) =>
    match scanLit '-' r1 with
    | none => (y, 0, false)
    | some r2 =>
      match scanLit 'W' r2 with
      | none => (y, 0, false)
      | some r3 =>
        match scanInt r3 with
        | none => (y, 0, false)
        | some (w, _) => (y, w, true)

/-- Go bytewise string comparison `a <= b` on character codes. -/
def charListLe : List Char → List Char → Bool
  | [], _ => true
  | _ :: _, [] => false
  | a :: as, b :: bs =>
    if a.toNat < b.toNat then true
    else if b.toNat < a.toNat then false
    else charListLe as bs

/-- Go string comparison `a <= b`. -/
def strLe (a b : String) : Bool := charListLe a.data b.data

/-- Go string comparison `a < b`. -/
def strLt (a b : String) : Bool := !(strLe b a)

/-- Day-of-year offset of a month/day pair in a March-first year, the
`(153*mp+2)/5 + d - 1` term of the civil-date conversion. -/
def dfcDoy (m d : Int) : Int := (153 * ((m + 9) % 12) + 2) / 5 + d - 1

/-- Year shifted so that the year starts in March, as used by the
civil-date conversion. -/
def dfcY2 (y m : Int) : Int := if m ≤ 2 then y - 1 else y

/-- Day number (days since 1970-01-01) of a proleptic Gregorian civil
date, the date arithmetic behind Go `time.Date(y, m, d, 0, 0, 0, 0, UTC)`. -/
def daysFromCivil (y m d : Int) : Int :=
  dfcY2 y m / 400 * 146097 + dfcY2 y m % 400 * 365
    + dfcY2 y m % 400 / 4 - dfcY2 y m % 400 / 100 + dfcDoy m d - 719468

/-- Day of the 400-year era of a day number. -/
def cfdDoe (z : Int) : Int := (z + 719468) % 146097

/-- Year of the era of an era day. -/
def cfdYoe (doe : Int) : Int := (doe - doe / 1460 + doe / 36524 - doe / 146096) / 365

/-- Day of the (March-first) year of an era day. -/
def cfdDoy (doe : Int) : Int := doe - (365 * cfdYoe doe + cfdYoe doe / 4 - cfdYoe doe / 100)

/-- March-first month index of an era day. -/
def cfdMp (doe : Int) : Int := (5 * cfdDoy doe + 2) / 153

/-- Civil month of an era day. -/
def cfdMonth (doe : Int) : Int := cfdMp doe + (if cfdMp doe < 10 then 3 else -9)

/-- Civil day of month of an era day. -/
def cfdDay (doe : Int) : Int := cfdDoy doe - (153 * cfdMp doe + 2) / 5 + 1

/-- Civil date (year, month, day) of a day number; the inverse of
`daysFromCivil`, as Go `absDate` computes it. -/
def civilFromDays (z : Int) : Int × Int × Int :=
  (if cfdMonth (cfdDoe z) ≤ 2
    then cfdYoe (cfdDoe z) + (z + 719468) / 146097 * 400 + 1
    else cfdYoe (cfdDoe z) + (z + 719468) / 146097 * 400,
   cfdMonth (cfdDoe z), cfdDay (cfdDoe z))

/-- Go `time.Weekday` of a day number: Sunday = 0; 1970-01-01 was a
Thursday. -/
def goWeekday (z : Int) : Int := (z + 4) % 7

/-- Go `Time.ISOWeek()` of a day number: move to the Thursday of the week
(weeks run Monday through Sunday), then report that Thursday's civil year
together with its zero-based day of year divided by 7, plus one. -/
def goISOWeek (z : Int) : Int × Int :=
  let d0 := 4 - goWeekday z
  let d := if d0 = 4 then -3 else d0
  let thu := z + d
  let y := (civilFromDays thu).1
  let yday := thu - daysFromCivil y 1 1
  (y, yday / 7 + 1)

/-- Day number of Dec 31 of a year, the probe date used by `nextWeek`. -/
def dec31 (y : Int) : Int := daysFromCivil y 12 31

/-- The `lastWeek` computation of `nextWeek` in `plugin.go`: 53 when
Dec 31 of the year falls in ISO week 53, else 52. -/
def weeksInYear (y : Int) : Int :=
  if (goISOWeek (dec31 y)).2 = 53 then 53 else 52

/-- `nextWeek` from `plugin.go`: scan the label, increment the week
number, and roll to week 1 of the next year past the last valid week. -/
def nextWeek (week : String) : String :=
  let p := scanWeek week
  let year := p.1
  let wn := p.2.1 + 1
  let lastWeek := weeksInYear year
  if wn > lastWeek then formatWeek (year + 1) 1 else formatWeek year wn

/-- The `getWeeksInRange` loop of `plugin.go`, with explicit fuel: `none`
means the fuel ran out before the loop condition `current <= end` became
false, `some ws` that the loop finished with result `ws`. -/
def rangeF : Nat → String → String → Option (List String)
  | 0, current, e => if strLe current e then none else some []
  | fuel + 1, current, e =>
    if strLe current e then (rangeF fuel (nextWeek current) e).map (current :: ·)
    else some []

/-- `weekToDate` from `plugin.go`: scan the label, take Jan 1 of the
scanned year, step back to the Monday on or before it, then add
`7*(week-1)` days. The returned `time.Time` is its day number. -/
def weekToDate (isoWeek : String) : Int :=
  let p := scanWeek isoWeek
  let year := p.1
  let week := p.2.1
  let firstDay := daysFromCivil year 1 1
  let offset0 := 1 - goWeekday firstDay
  let offset := if offset0 > 0 then offset0 - 7 else offset0
  firstDay + offset + 7 * (week - 1)

/-- The Monday beginning ISO week 1 of a year under the ISO-8601 rule
stated by the specification: week 1 is the Monday-through-Sunday week
containing Jan 4. This is the specification-side reference point against
which `weekToDate` is compared. -/
def isoWeek1Monday (y : Int) : Int :=
  let jan4 := daysFromCivil y 1 4
  jan4 - (jan4 + 3) % 7

/-- Day number of the Monday beginning a given ISO week. -/
def isoWeekStart (y w : Int) : Int := isoWeek1Monday y + 7 * (w - 1)

/-- The defaulting of the requested week range in `handleGetStats`
(lines 239-242): when either query parameter is empty, the range becomes
`current week minus 4` through the current week, by plain subtraction on
the current ISO week number. -/
def defaultedRange (weekStartParam weekEndParam : String) (cy cw : Int) : String × String :=
  if weekStartParam = "" ∨ weekEndParam = "" then (formatWeek cy (cw - 4), formatWeek cy cw)
  else (weekStartParam, weekEndParam)

/-- A valid ISO week for its year: week number between 1 and the year's
last valid week. -/
def validWeek (y w : Int) : Prop := 1 ≤ w ∧ w ≤ weeksInYear y

/-- Per-contributor weekly counters, `WeekUserStat` from `plugin.go`. -/
structure WeekUserStat where
  commits : Int
  added : Int
  removed : Int
deriving DecidableEq, Repr

/-- Cached per-repository, per-week record, `WeeklyRepoStats` from
`plugin.go`. The Go `map[string]WeekUserStat` is modeled as an association
list keyed by GitHub login, ordered by first discovery. -/
structure WeeklyRepoStats where
  week : String
  repo : String
  users : List (String × WeekUserStat)
  fetchedAt : String
deriving DecidableEq, Repr

/-- One decoded element of the GitHub commit-listing response, as decoded
by `fetchWeekFromGitHub`: `author` is `none` when the commit has a null
author object, otherwise the author's login. -/
structure GoCommit where
  sha : String
  author : Option String
deriving DecidableEq, Repr

/-- The `s := stats.Users[login]; s.Commits++; stats.Users[login] = s`
update of `fetchWeekFromGitHub`: bump the commit count of a login,
inserting a zero-valued entry first when the login is new. -/
def bumpUser : List (String × WeekUserStat) → String → List (String × WeekUserStat)
  | [], login => [(login, ⟨1, 0, 0⟩)]
  | (l, s) :: rest, login =>
    if l = login then (l, ⟨s.commits + 1, s.added, s.removed⟩) :: rest
    else (l, s) :: bumpUser rest login

/-- One iteration of the commit-counting loop of `fetchWeekFromGitHub`:
a commit with a nil author or an empty author login is skipped (`continue`),
every other commit bumps its author's commit count. -/
def commitStep (users : List (String × WeekUserStat)) (c : GoCommit) :
    List (String × WeekUserStat) :=
  match c.author with
  | none => users
  | some login => if login = "" then users else bumpUser users login

/-- Whether a commit survives the author guard of `fetchWeekFromGitHub`. -/
def hasAuthor (c : GoCommit) : Bool :=
  match c.author with
  | none => false
  | some login => !(login == "")

/-- The commit-counting loop of `fetchWeekFromGitHub`; line counts are
never touched. -/
def buildWeekUsers (commits : List GoCommit) : List (String × WeekUserStat) :=
  commits.foldl commitStep []

/-- `fetchWeekFromGitHub` from `plugin.go`: the HTTP layer is a parameter
(`none` models a transport error or a non-200 status, in which case the Go
function returns nil; `some commits` the decoded 200 response body). -/
def fetchWeekFromGitHub (repo week : String) (response : Option (List GoCommit))
    (fetchedAt : String) : Option WeeklyRepoStats :=
  match response with
  | none => none
  | some commits => some ⟨week, repo, buildWeekUsers commits, fetchedAt⟩

/-- The `strings.ReplaceAll(repo, "/", "_")` of the cache key. -/
def replaceSlash : List Char → List Char
  | [] => []
  | c :: cs => (if c = '/' then '_' else c) :: replaceSlash cs

/-- The KV cache key `gh_stats_<repo with slashes replaced>_<week>` of
`getWeeklyStats`. -/
def cacheKey (repo week : String) : String :=
  "gh_stats_" ++ ⟨replaceSlash repo.data⟩ ++ "_" ++ week

/-- `getWeeklyStats` from `plugin.go`. `cached` is the KV lookup outcome
(`some` only when KVGet succeeded with data that unmarshals), `response`
the GitHub commit listing. Returns the record handed to the aggregation
together with the KV write performed, if any. -/
def getWeeklyStats (repo week : String) (isCurrentWeek : Bool)
    (cached : Option WeeklyRepoStats) (response : Option (List GoCommit))
    (fetchedAt : String) :
    Option WeeklyRepoStats × Option (String × WeeklyRepoStats) :=
  match isCurrentWeek, cached with
  | false, some c => (some c, none)
  | isCur, _ =>
    match fetchWeekFromGitHub repo week response fetchedAt with
    | none => (none, none)
    | some stats =>
      if isCur = false ∧ stats.users ≠ [] then
        (some stats, some (cacheKey repo week, stats))
      else (some stats, none)

/-- The fields of a Mattermost user consumed by `handleGetStats`. -/
structure MMUser where
  username : String
  firstName : String
  lastName : String
  nickname : String
deriving DecidableEq, Repr

/-- Aggregated per-user output row, `UserStats` from `plugin.go`. -/
structure UserStats where
  mmUserID : String
  mmUsername : String
  name : String
  commits : Int
  added : Int
  removed : Int
  byRepo : List (String × Int)
deriving DecidableEq, Repr

/-- ASCII space trim, `strings.TrimSpace` on the ASCII strings involved. -/
def trimSpace (s : String) : String :=
  ⟨(s.data.dropWhile isSpaceChar).reverse.dropWhile isSpaceChar |>.reverse⟩

/-- The per-login body of the response-building loop of `handleGetStats`
(lines 296-324). `mappings` is the decoded identity mapping as a total
function (Go map lookup yields "" for an absent key); `getUser` the
Mattermost directory lookup (`none` models a lookup error). -/
def buildUserStat (mappings : String → String) (getUser : String → Option MMUser)
    (ghLogin : String) (commits added removed : Int)
    (byRepo : List (String × Int)) : UserStats :=
  let mmUserID := mappings ghLogin
  let resolved :=
    if mmUserID ≠ "" then
      match getUser mmUserID with
      | some user =>
        (user.username,
          if user.firstName ≠ "" ∨ user.lastName ≠ "" then
            trimSpace (user.firstName ++ " " ++ user.lastName)
          else if user.nickname ≠ "" then user.nickname
          else ghLogin)
      | none => ("", ghLogin)
    else ("", ghLogin)
  ⟨mmUserID, resolved.1, resolved.2, commits, added, removed, byRepo⟩

/-- One pass of the inner loop of the sort in `handleGetStats`
(lines 326-333) for a fixed outer index: `x` is `users[i]`; whenever a
later element has strictly more commits it is swapped into the front
position. Returns the element left at the front together with the
remainder of the slice. -/
def sortPass : UserStats → List UserStats → UserStats × List UserStats
  | x, [] => (x, [])
  | x, y :: ys =>
    if x.commits < y.commits then ((sortPass y ys).1, x :: (sortPass y ys).2)
    else ((sortPass x ys).1, y :: (sortPass x ys).2)

/-- The outer loop of the sort, with fuel for kernel evaluation: each
iteration fixes the front element via `sortPass` and recurses on the
remainder. -/
def sortUsersAux : Nat → List UserStats → List UserStats
  | 0, l => l
  | _ + 1, [] => []
  | fuel + 1, x :: xs =>
    (sortPass x xs).1 :: sortUsersAux fuel (sortPass x xs).2

/-- The commits-descending exchange sort of `handleGetStats`. -/
def sortUsers (l : List UserStats) : List UserStats := sortUsersAux l.length l

theorem natCharsAux_congr : ∀ f1 f2 n, n < f1 → n < f2 → natCharsAux f1 n = natCharsAux f2 n := by
  intro f1
  induction f1 with
  | zero => intro f2 n h; omega
  | succ g ih =>
    intro f2 n h1 h2
    cases f2 with
    | zero => omega
    | succ f =>
      simp only [natCharsAux]
      by_cases hn : n < 10
      · simp [hn]
      · simp only [if_neg hn]
        rw [ih f (n / 10) (by omega) (by omega)]

theorem natChars_eq (n : Nat) :
    natChars n = if n < 10 then [Char.ofNat (48 + n)]
      else natChars (n / 10) ++ [Char.ofNat (48 + n % 10)] := by
  show natCharsAux (n + 1) n = _
  rw [natCharsAux]
  by_cases hn : n < 10
  · simp [hn]
  · simp only [if_neg hn]
    rw [natCharsAux_congr n (n / 10 + 1) (n / 10) (by omega) (by omega)]
    rfl

theorem digit_toNat {n : Nat} (h : n < 10) : (Char.ofNat (48 + n)).toNat = 48 + n := by
  interval_cases n <;> decide

theorem digit_isDigit {n : Nat} (h : n < 10) : isDigitChar (Char.ofNat (48 + n)) = true := by
  interval_cases n <;> decide

theorem natChars_ne_nil (n : Nat) : natChars n ≠ [] := by
  rw [natChars_eq]
  split
  · simp
  · simp

theorem natChars_length_pos (n : Nat) : 1 ≤ (natChars n).length := by
  have := natChars_ne_nil n
  cases h : natChars n with
  | nil => exact absurd h this
  | cons a as => simp

theorem natChars_digits : ∀ n, ∀ c ∈ natChars n, isDigitChar c = true := by
  intro n
  induction n using Nat.strong_induction_on with
  | _ n ih =>
    rw [natChars_eq]
    by_cases hn : n < 10
    · simp only [if_pos hn, List.mem_singleton]
      intro c hc
      subst hc
      exact digit_isDigit hn
    · simp only [if_neg hn, List.mem_append, List.mem_singleton]
      intro c hc
      rcases hc with hc | hc
      · exact ih (n / 10) (by omega) c hc
      · subst hc
        exact digit_isDigit (by omega)

theorem natChars_length_lt10 {n : Nat} (h : n < 10) : (natChars n).length = 1 := by
  rw [natChars_eq, if_pos h]
  rfl

theorem natChars_length_ge10 {n : Nat} (h : 10 ≤ n) : 2 ≤ (natChars n).length := by
  rw [natChars_eq, if_neg (by omega)]
  have := natChars_length_pos (n / 10)
  simp only [List.length_append, List.length_singleton]
  omega

/-- The list after the scanned prefix begins with a non-digit (or is empty). -/
def headNotDigit : List Char → Prop
  | [] => True
  | c :: _ => isDigitChar c = false

theorem headNotDigit_nil : headNotDigit [] := trivial

theorem takeDigitsAux_stop {rest : List Char} (h : headNotDigit rest) (acc : Nat) :
    takeDigitsAux rest acc = (acc, rest) := by
  cases rest with
  | nil => rfl
  | cons c cs => simp [takeDigitsAux, headNotDigit] at h ⊢; simp [h]

theorem takeDigitsAux_natChars : ∀ n rest acc,
    takeDigitsAux (natChars n ++ rest) acc
      = takeDigitsAux rest (acc * 10 ^ (natChars n).length + n) := by
  intro n
  induction n using Nat.strong_induction_on with
  | _ n ih =>
    intro rest acc
    rw [natChars_eq]
    by_cases hn : n < 10
    · simp only [if_pos hn, List.singleton_append]
      rw [takeDigitsAux, if_pos (digit_isDigit hn), digit_toNat hn]
      simp only [List.length_singleton, pow_one]
      congr 1
      omega
    · simp only [if_neg hn]
      rw [List.append_assoc]
      rw [ih (n / 10) (by omega)]
      simp only [List.singleton_append]
      rw [takeDigitsAux, if_pos (digit_isDigit (show n % 10 < 10 by omega)),
        digit_toNat (show n % 10 < 10 by omega)]
      simp only [List.length_append, List.length_singleton]
      congr 1
      have hpow : (10 : Nat) ^ ((natChars (n / 10)).length + 1)
          = 10 ^ (natChars (n / 10)).length * 10 := pow_succ 10 _
      rw [hpow]
      have : (acc * 10 ^ (natChars (n / 10)).length + n / 10) * 10 + (48 + n % 10 - 48)
          = acc * (10 ^ (natChars (n / 10)).length * 10) + (n / 10 * 10 + n % 10) := by
        have h48 : 48 + n % 10 - 48 = n % 10 := by omega
        rw [h48]; ring
      rw [this]
      congr 1
      omega

theorem digit_bounds {c : Char} (h : isDigitChar c = true) :
    48 ≤ c.toNat ∧ c.toNat ≤ 57 := by
  simp only [isDigitChar, Bool.and_eq_true, decide_eq_true_eq] at h
  exact h

theorem digit_not_space {c : Char} (h : isDigitChar c = true) : isSpaceChar c = false := by
  have hb := digit_bounds h
  simp only [isSpaceChar, Bool.or_eq_false_iff, Bool.and_eq_false_iff,
    decide_eq_false_iff_not]
  omega

theorem digit_ne_minus {c : Char} (h : isDigitChar c = true) : c ≠ '-' := by
  have hb := digit_bounds h
  intro hc
  subst hc
  simp at hb

theorem digit_ne_plus {c : Char} (h : isDigitChar c = true) : c ≠ '+' := by
  have hb := digit_bounds h
  intro hc
  subst hc
  simp at hb

theorem skipSpaces_nospace {c : Char} {cs : List Char} (h : isSpaceChar c = false) :
    skipSpaces (c :: cs) = c :: cs := by
  simp [skipSpaces, List.dropWhile, h]

theorem scanInt_natChars (n : Nat) (rest : List Char) (hrest : headNotDigit rest) :
    scanInt (natChars n ++ rest) = some ((n : Int), rest) := by
  obtain ⟨d, ds, hds⟩ := List.exists_cons_of_ne_nil (natChars_ne_nil n)
  have hd : isDigitChar d = true := natChars_digits n d (by rw [hds]; exact List.mem_cons_self d ds)
  rw [hds, List.cons_append]
  unfold scanInt
  rw [skipSpaces_nospace (digit_not_space hd)]
  simp only [if_neg (digit_ne_minus hd), if_neg (digit_ne_plus hd), if_pos hd]
  rw [← List.cons_append, ← hds, takeDigitsAux_natChars, takeDigitsAux_stop hrest]
  simp

theorem scanInt_negChars (n : Nat) (rest : List Char) (hrest : headNotDigit rest) :
    scanInt ('-' :: (natChars n ++ rest)) = some (-(n : Int), rest) := by
  obtain ⟨d, ds, hds⟩ := List.exists_cons_of_ne_nil (natChars_ne_nil n)
  have hd : isDigitChar d = true := natChars_digits n d (by rw [hds]; exact List.mem_cons_self d ds)
  unfold scanInt
  rw [skipSpaces_nospace (show isSpaceChar '-' = false by decide)]
  simp only [if_pos rfl]
  rw [hds, List.cons_append]
  simp only [if_pos hd]
  rw [← List.cons_append, ← hds, takeDigitsAux_natChars, takeDigitsAux_stop hrest]
  simp

theorem intStr_data_nonneg {n : Int} (h : 0 ≤ n) : (intStr n).data = natChars n.toNat := by
  rw [intStr, if_neg (by omega)]

theorem intStr_data_neg {n : Int} (h : n < 0) : (intStr n).data = '-' :: natChars (-n).toNat := by
  rw [intStr, if_pos h]

theorem pad2_data (w : Int) : (pad2 w).data =
    if w < 0 then '-' :: natChars (-w).toNat
    else if w < 10 then '0' :: natChars w.toNat
    else natChars w.toNat := by
  by_cases hneg : w < 0
  · rw [if_pos hneg]
    have hlen : (intStr w).length = (natChars (-w).toNat).length + 1 := by
      show (intStr w).data.length = _
      rw [intStr_data_neg hneg]
      simp
    rw [pad2, hlen, if_neg (by have := natChars_length_pos (-w).toNat; omega)]
    exact intStr_data_neg hneg
  · rw [if_neg hneg]
    by_cases hlt : w < 10
    · rw [if_pos hlt]
      have hlen : (intStr w).length = 1 := by
        show (intStr w).data.length = _
        rw [intStr_data_nonneg (by omega)]
        exact natChars_length_lt10 (by omega)
      rw [pad2, hlen, if_pos (by omega)]
      rw [String.data_append, intStr_data_nonneg (by omega)]
      rfl
    · rw [if_neg hlt]
      have hlen : 2 ≤ (intStr w).length := by
        show 2 ≤ (intStr w).data.length
        rw [intStr_data_nonneg (by omega)]
        exact natChars_length_ge10 (by omega)
      rw [pad2, if_neg (by omega)]
      exact intStr_data_nonneg (by omega)

theorem formatWeek_data (y w : Int) :
    (formatWeek y w).data = (intStr y).data ++ '-' :: 'W' :: (pad2 w).data := by
  show ((intStr y ++ "-W") ++ pad2 w).data = _
  rw [String.data_append, String.data_append]
  simp

theorem scanInt_pad2 (w : Int) :
    scanInt (pad2 w).data = some (w, []) := by
  rw [pad2_data]
  by_cases hneg : w < 0
  · rw [if_pos hneg]
    have := scanInt_negChars (-w).toNat [] headNotDigit_nil
    rw [List.append_nil] at this
    rw [this]
    congr 2
    omega
  · rw [if_neg hneg]
    by_cases hlt : w < 10
    · rw [if_pos hlt]
      unfold scanInt
      rw [skipSpaces_nospace (show isSpaceChar '0' = false by decide)]
      simp only [if_neg (show ('0' : Char) ≠ '-' by decide), if_neg (show ('0' : Char) ≠ '+' by decide),
        if_pos (show isDigitChar '0' = true by decide)]
      have h0 : takeDigitsAux ('0' :: natChars w.toNat) 0 = (w.toNat, []) := by
        rw [takeDigitsAux, if_pos (show isDigitChar '0' = true by decide)]
        have : (0 : Nat) * 10 + ('0'.toNat - 48) = 0 := by decide
        rw [this]
        have := takeDigitsAux_natChars w.toNat [] 0
        rw [List.append_nil] at this
        rw [this, takeDigitsAux_stop headNotDigit_nil]
        simp
      rw [h0]
      simp
      omega
    · rw [if_neg hlt]
      have := scanInt_natChars w.toNat [] headNotDigit_nil
      rw [List.append_nil] at this
      rw [this]
      congr 2
      omega

theorem scanWeek_formatWeek {y : Int} (w : Int) (hy : 0 ≤ y) :
    scanWeek (formatWeek y w) = (y, w, true) := by
  have hnd : headNotDigit ('-' :: 'W' :: (pad2 w).data) := by
    show isDigitChar '-' = false
    decide
  unfold scanWeek
  rw [formatWeek_data, intStr_data_nonneg hy,
    scanInt_natChars y.toNat ('-' :: 'W' :: (pad2 w).data) hnd]
  simp [scanLit, scanInt_pad2, Int.toNat_of_nonneg hy]

theorem dfcY2_shift (y m k : Int) : dfcY2 (y + 400 * k) m = dfcY2 y m + 400 * k := by
  unfold dfcY2
  split <;> omega

theorem daysFromCivil_shift (y m d k : Int) :
    daysFromCivil (y + 400 * k) m d = daysFromCivil y m d + 146097 * k := by
  unfold daysFromCivil
  rw [dfcY2_shift]
  omega

theorem cfdDoe_shift (z k : Int) : cfdDoe (z + 146097 * k) = cfdDoe z := by
  unfold cfdDoe
  omega

theorem civilFromDays_shift (z k : Int) :
    civilFromDays (z + 146097 * k) =
      ((civilFromDays z).1 + 400 * k, (civilFromDays z).2.1, (civilFromDays z).2.2) := by
  have h1 : (z + 146097 * k + 719468) / 146097 = (z + 719468) / 146097 + k := by omega
  simp only [civilFromDays, cfdDoe_shift, h1]
  split <;> simp only [Prod.mk.injEq, and_true] <;> ring

theorem goISOWeek_shift (z k : Int) :
    goISOWeek (z + 146097 * k) = ((goISOWeek z).1 + 400 * k, (goISOWeek z).2) := by
  have h7 : 4 - (z + 146097 * k + 4) % 7 = 4 - (z + 4) % 7 := by omega
  simp only [goISOWeek, goWeekday, h7]
  have h2 : z + 146097 * k + (if 4 - (z + 4) % 7 = 4 then -3 else 4 - (z + 4) % 7)
      = (z + (if 4 - (z + 4) % 7 = 4 then -3 else 4 - (z + 4) % 7)) + 146097 * k := by ring
  rw [h2, civilFromDays_shift, daysFromCivil_shift]
  simp only [Prod.mk.injEq]
  exact ⟨trivial, by ring_nf⟩

theorem weeksInYear_shift (y k : Int) : weeksInYear (y + 400 * k) = weeksInYear y := by
  unfold weeksInYear dec31
  rw [daysFromCivil_shift, goISOWeek_shift]

theorem isoWeek1Monday_shift (y k : Int) :
    isoWeek1Monday (y + 400 * k) = isoWeek1Monday y + 146097 * k := by
  simp only [isoWeek1Monday]
  rw [daysFromCivil_shift]
  omega

/-- Decidable single-year check that the Monday of week 1 of the next year
sits exactly `7 * weeksInYear y` days after the Monday of week 1 of this
year. -/
def weeksStepOK (y : Int) : Bool :=
  isoWeek1Monday (y + 1) == isoWeek1Monday y + 7 * weeksInYear y

set_option maxRecDepth 10000 in
theorem weeksStepBase : ((List.range 400).all fun n => weeksStepOK n) = true := by decide

/-- The source's `lastWeek` count is consistent with the ISO week-1 Monday
of consecutive years: an ISO year spans exactly `weeksInYear` weeks. -/
theorem weeksStep (y : Int) : isoWeek1Monday (y + 1) = isoWeek1Monday y + 7 * weeksInYear y := by
  have hr : 0 ≤ y % 400 ∧ y % 400 < 400 :=
    ⟨Int.emod_nonneg y (by norm_num), Int.emod_lt_of_pos y (by norm_num)⟩
  have hy : y = y % 400 + 400 * (y / 400) := by omega
  have hbase : ∀ n : Nat, n < 400 → weeksStepOK (n : Int) = true := by
    intro n hn
    have := List.all_eq_true.mp weeksStepBase (n : Nat) (List.mem_range.mpr hn)
    simpa using this
  have hr2 : y % 400 = ((y % 400).toNat : Int) := by omega
  have hbase2 : weeksStepOK (y % 400) = true := by
    rw [hr2]
    exact hbase (y % 400).toNat (by omega)
  have hstep : isoWeek1Monday (y % 400 + 1)
      = isoWeek1Monday (y % 400) + 7 * weeksInYear (y % 400) := by
    simpa [weeksStepOK] using hbase2
  have hy1 : y + 1 = y % 400 + 1 + 400 * (y / 400) := by omega
  calc isoWeek1Monday (y + 1)
      = isoWeek1Monday (y % 400 + 1 + 400 * (y / 400)) := by rw [hy1]
    _ = isoWeek1Monday (y % 400 + 1) + 146097 * (y / 400) := isoWeek1Monday_shift _ _
    _ = isoWeek1Monday (y % 400) + 7 * weeksInYear (y % 400) + 146097 * (y / 400) := by
        rw [hstep]
    _ = (isoWeek1Monday (y % 400) + 146097 * (y / 400))
          + 7 * weeksInYear (y % 400 + 400 * (y / 400)) := by
        rw [weeksInYear_shift]; ring
    _ = isoWeek1Monday y + 7 * weeksInYear y := by rw [← isoWeek1Monday_shift, ← hy]

theorem weeksInYear_ge (y : Int) : 52 ≤ weeksInYear y := by
  unfold weeksInYear
  split <;> norm_num

theorem weeksInYear_le (y : Int) : weeksInYear y ≤ 53 := by
  unfold weeksInYear
  split <;> norm_num

theorem char_toNat_inj {c d : Char} (h : c.toNat = d.toNat) : c = d := by
  apply Char.eq_of_val_eq
  have hv : c.val.toNat = d.val.toNat := h
  exact UInt32.toNat.inj hv

theorem charListLe_refl : ∀ l, charListLe l l = true := by
  intro l
  induction l with
  | nil => rfl
  | cons a as ih => simp [charListLe, ih]

theorem charListLe_cons (x y : Char) (xs ys : List Char) :
    charListLe (x :: xs) (y :: ys)
      = if x.toNat < y.toNat then true
        else if y.toNat < x.toNat then false
        else charListLe xs ys := rfl

theorem natChars_inj : ∀ a b, natChars a = natChars b → a = b := by
  intro a
  induction a using Nat.strong_induction_on with
  | _ a ih =>
    intro b hab
    have hlen : (natChars a).length = (natChars b).length := by rw [hab]
    by_cases ha : a < 10 <;> by_cases hb : b < 10
    · rw [natChars_eq, if_pos ha, natChars_eq, if_pos hb] at hab
      have : (Char.ofNat (48 + a)).toNat = (Char.ofNat (48 + b)).toNat := by
        rw [List.cons.injEq] at hab
        rw [hab.1]
      rw [digit_toNat ha, digit_toNat hb] at this
      omega
    · exfalso
      rw [natChars_length_lt10 ha] at hlen
      have := natChars_length_ge10 (show 10 ≤ b by omega)
      omega
    · exfalso
      rw [natChars_length_lt10 hb] at hlen
      have := natChars_length_ge10 (show 10 ≤ a by omega)
      omega
    · rw [natChars_eq a, if_neg ha, natChars_eq b, if_neg hb] at hab
      have hrev := congrArg List.reverse hab
      simp only [List.reverse_append, List.reverse_singleton, List.singleton_append,
        List.cons.injEq] at hrev
      obtain ⟨hlast, hinit⟩ := hrev
      have hpre : natChars (a / 10) = natChars (b / 10) := by
        have := congrArg List.reverse hinit
        simpa using this
      have hdiv : a / 10 = b / 10 := ih (a / 10) (by omega) (b / 10) hpre
      have hmod : a % 10 = b % 10 := by
        have := congrArg Char.toNat hlast
        rw [digit_toNat (show a % 10 < 10 by omega), digit_toNat (show b % 10 < 10 by omega)] at this
        omega
      omega

theorem charListLe_digits : ∀ a b r s, (natChars a).length = (natChars b).length →
    (charListLe (natChars a ++ r) (natChars b ++ s) = true
      ↔ (a < b ∨ (a = b ∧ charListLe r s = true))) := by
  intro a
  induction a using Nat.strong_induction_on with
  | _ a ih =>
    intro b r s hlen
    by_cases ha : a < 10 <;> by_cases hb : b < 10
    · rw [natChars_eq a, if_pos ha]
      rw [natChars_eq b, if_pos hb]
      simp only [List.singleton_append, charListLe_cons,
        digit_toNat ha, digit_toNat hb]
      by_cases hab : a < b
      · rw [if_pos (by omega)]
        simp [hab]
      · rw [if_neg (by omega)]
        by_cases hba : b < a
        · rw [if_pos (by omega)]
          simp
          omega
        · rw [if_neg (by omega)]
          have : a = b := by omega
          simp [this]
    · exfalso
      rw [natChars_length_lt10 ha] at hlen
      have := natChars_length_ge10 (show 10 ≤ b by omega)
      omega
    · exfalso
      rw [natChars_length_lt10 hb] at hlen
      have := natChars_length_ge10 (show 10 ≤ a by omega)
      omega
    · rw [natChars_eq a, if_neg ha]
      rw [natChars_eq b, if_neg hb]
      rw [List.append_assoc, List.append_assoc]
      have hlen2 : (natChars (a / 10)).length = (natChars (b / 10)).length := by
        rw [natChars_eq a, if_neg ha, natChars_eq b, if_neg hb] at hlen
        simp only [List.length_append, List.length_singleton] at hlen
        omega
      rw [ih (a / 10) (by omega) (b / 10) _ _ hlen2]
      simp only [List.singleton_append, charListLe_cons,
        digit_toNat (show a % 10 < 10 by omega), digit_toNat (show b % 10 < 10 by omega)]
      constructor
      · intro h
        rcases h with h | ⟨he, hq⟩
        · left; omega
        · by_cases h3 : 48 + a % 10 < 48 + b % 10
          · left; omega
          · rw [if_neg h3] at hq
            by_cases h4 : 48 + b % 10 < 48 + a % 10
            · rw [if_pos h4] at hq
              exact absurd hq (by simp)
            · rw [if_neg h4] at hq
              right
              exact ⟨by omega, hq⟩
      · intro h
        rcases h with h | ⟨he, hq⟩
        · by_cases h1 : a / 10 < b / 10
          · left; exact h1
          · have he : a / 10 = b / 10 := by omega
            have h3 : a % 10 < b % 10 := by omega
            right
            refine ⟨he, ?_⟩
            rw [if_pos (by omega)]
        · subst he
          right
          refine ⟨rfl, ?_⟩
          rw [if_neg (by omega), if_neg (by omega)]
          exact hq

theorem natChars_length_step {n : Nat} (h : 10 ≤ n) :
    (natChars n).length = (natChars (n / 10)).length + 1 := by
  rw [natChars_eq n, if_neg (by omega)]
  simp

theorem natChars_length_two {n : Nat} (h1 : 10 ≤ n) (h2 : n ≤ 99) :
    (natChars n).length = 2 := by
  rw [natChars_length_step h1, natChars_length_lt10 (show n / 10 < 10 by omega)]

theorem natChars_length_four {n : Nat} (h1 : 1000 ≤ n) (h2 : n ≤ 9999) :
    (natChars n).length = 4 := by
  rw [natChars_length_step (by omega), natChars_length_step (by omega),
    natChars_length_step (by omega),
    natChars_length_lt10 (show n / 10 / 10 / 10 < 10 by omega)]

theorem natChars_two_digits {n : Nat} (h1 : 10 ≤ n) (h2 : n ≤ 99) :
    natChars n = [Char.ofNat (48 + n / 10), Char.ofNat (48 + n % 10)] := by
  rw [natChars_eq n, if_neg (by omega), natChars_eq (n / 10), if_pos (by omega)]
  rfl

theorem pad2_data_nonneg {w : Int} (h : 0 ≤ w) :
    (pad2 w).data = if w < 10 then '0' :: natChars w.toNat else natChars w.toNat := by
  rw [pad2_data, if_neg (by omega)]

theorem pad2_le_iff {w1 w2 : Int} (h1 : 0 ≤ w1) (h2 : w1 ≤ 99) (h3 : 0 ≤ w2) (h4 : w2 ≤ 99) :
    (charListLe (pad2 w1).data (pad2 w2).data = true ↔ w1 ≤ w2) := by
  rw [pad2_data_nonneg h1, pad2_data_nonneg h3]
  by_cases hw1 : w1 < 10 <;> by_cases hw2 : w2 < 10
  · rw [if_pos hw1, if_pos hw2]
    rw [natChars_eq, if_pos (show w1.toNat < 10 by omega),
      natChars_eq, if_pos (show w2.toNat < 10 by omega)]
    rw [charListLe_cons, if_neg (by omega), if_neg (by omega)]
    rw [charListLe_cons, digit_toNat (show w1.toNat < 10 by omega),
      digit_toNat (show w2.toNat < 10 by omega)]
    by_cases hlt : 48 + w1.toNat < 48 + w2.toNat
    · rw [if_pos hlt]
      constructor
      · intro _; omega
      · intro _; rfl
    · rw [if_neg hlt]
      by_cases hgt : 48 + w2.toNat < 48 + w1.toNat
      · rw [if_pos hgt]
        constructor
        · intro hc; exact absurd hc (by simp)
        · intro hc; omega
      · rw [if_neg hgt]
        constructor
        · intro _; omega
        · intro _; exact charListLe_refl []
  · rw [if_pos hw1, if_neg hw2]
    rw [natChars_two_digits (show 10 ≤ w2.toNat by omega) (show w2.toNat ≤ 99 by omega)]
    rw [charListLe_cons, digit_toNat (show w2.toNat / 10 < 10 by omega)]
    rw [show ('0' : Char).toNat = 48 from by decide]
    rw [if_pos (by omega)]
    constructor
    · intro _; omega
    · intro _; rfl
  · rw [if_neg hw1, if_pos hw2]
    rw [natChars_two_digits (show 10 ≤ w1.toNat by omega) (show w1.toNat ≤ 99 by omega)]
    rw [charListLe_cons, digit_toNat (show w1.toNat / 10 < 10 by omega)]
    rw [show ('0' : Char).toNat = 48 from by decide]
    rw [if_neg (by omega), if_pos (by omega)]
    constructor
    · intro hc; exact absurd hc (by simp)
    · intro hc; omega
  · rw [if_neg hw1, if_neg hw2]
    have e1 : natChars w1.toNat = natChars w1.toNat ++ [] := by simp
    have e2 : natChars w2.toNat = natChars w2.toNat ++ [] := by simp
    rw [e1, e2, charListLe_digits w1.toNat w2.toNat [] []
      (by rw [natChars_length_two (by omega) (by omega),
              natChars_length_two (by omega) (by omega)])]
    constructor
    · intro hc
      rcases hc with hc | hc
      · omega
      · omega
    · intro hc
      by_cases he : w1.toNat = w2.toNat
      · exact Or.inr ⟨he, rfl⟩
      · exact Or.inl (by omega)

theorem strLe_format_iff {y1 w1 y2 w2 : Int}
    (hy1 : 1000 ≤ y1) (hy2 : y1 ≤ 9999) (hy3 : 1000 ≤ y2) (hy4 : y2 ≤ 9999)
    (hw1 : 0 ≤ w1) (hw2 : w1 ≤ 99) (hw3 : 0 ≤ w2) (hw4 : w2 ≤ 99) :
    (strLe (formatWeek y1 w1) (formatWeek y2 w2) = true
      ↔ (y1 < y2 ∨ (y1 = y2 ∧ w1 ≤ w2))) := by
  show charListLe (formatWeek y1 w1).data (formatWeek y2 w2).data = true ↔ _
  rw [formatWeek_data, formatWeek_data, intStr_data_nonneg (by omega : (0:Int) ≤ y1),
    intStr_data_nonneg (by omega : (0:Int) ≤ y2)]
  rw [charListLe_digits y1.toNat y2.toNat _ _
    (by rw [natChars_length_four (by omega) (by omega),
            natChars_length_four (by omega) (by omega)])]
  rw [charListLe_cons, if_neg (by omega), if_neg (by omega)]
  rw [charListLe_cons, if_neg (by omega), if_neg (by omega)]
  rw [pad2_le_iff hw1 hw2 hw3 hw4]
  constructor
  · intro hc
    rcases hc with hc | hc
    · left; omega
    · right; exact ⟨by omega, hc.2⟩
  · intro hc
    rcases hc with hc | hc
    · left; omega
    · right; exact ⟨by omega, hc.2⟩

theorem strLt_format_iff {y1 w1 y2 w2 : Int}
    (hy1 : 1000 ≤ y1) (hy2 : y1 ≤ 9999) (hy3 : 1000 ≤ y2) (hy4 : y2 ≤ 9999)
    (hw1 : 0 ≤ w1) (hw2 : w1 ≤ 99) (hw3 : 0 ≤ w2) (hw4 : w2 ≤ 99) :
    (strLt (formatWeek y1 w1) (formatWeek y2 w2) = true
      ↔ (y1 < y2 ∨ (y1 = y2 ∧ w1 < w2))) := by
  show (!(strLe (formatWeek y2 w2) (formatWeek y1 w1))) = true ↔ _
  rw [Bool.not_eq_true']
  constructor
  · intro hc
    by_cases hle : strLe (formatWeek y2 w2) (formatWeek y1 w1) = true
    · rw [hle] at hc; exact absurd hc (by simp)
    · rw [strLe_format_iff hy3 hy4 hy1 hy2 hw3 hw4 hw1 hw2] at hle
      omega
  · intro hc
    by_cases hle : strLe (formatWeek y2 w2) (formatWeek y1 w1) = true
    · rw [strLe_format_iff hy3 hy4 hy1 hy2 hw3 hw4 hw1 hw2] at hle
      omega
    · simp only [Bool.not_eq_true] at hle
      exact hle

theorem nextWeek_formatWeek {y : Int} (w : Int) (hy : 0 ≤ y) :
    nextWeek (formatWeek y w)
      = if w + 1 > weeksInYear y then formatWeek (y + 1) 1 else formatWeek y (w + 1) := by
  unfold nextWeek
  rw [scanWeek_formatWeek w hy]

theorem strLe_refl (a : String) : strLe a a = true := charListLe_refl a.data

theorem isoWeek1Monday_mono {y y' : Int} (h : y ≤ y') :
    isoWeek1Monday y ≤ isoWeek1Monday y' := by
  exact @Int.le_induction (fun z => isoWeek1Monday y ≤ isoWeek1Monday z) y (le_refl _)
    (fun n hn ih => by
      have hstep := weeksStep n
      have hge := weeksInYear_ge n
      omega) y' h

theorem isoWeekStart_lt_of_lex {y1 w1 y2 w2 : Int}
    (hw1 : 1 ≤ w1) (hw2 : w1 ≤ weeksInYear y1) (hw3 : 1 ≤ w2)
    (hlex : y1 < y2 ∨ (y1 = y2 ∧ w1 < w2)) :
    isoWeekStart y1 w1 < isoWeekStart y2 w2 := by
  rcases hlex with hlt | ⟨heq, hlt⟩
  · have hstep := weeksStep y1
    have hmono : isoWeek1Monday (y1 + 1) ≤ isoWeek1Monday y2 := isoWeek1Monday_mono (by omega)
    simp only [isoWeekStart]
    omega
  · subst heq
    simp only [isoWeekStart]
    omega

theorem isoWeekStart_lt_iff {y1 w1 y2 w2 : Int}
    (hw1 : 1 ≤ w1) (hw2 : w1 ≤ weeksInYear y1) (hw3 : 1 ≤ w2) (hw4 : w2 ≤ weeksInYear y2) :
    (isoWeekStart y1 w1 < isoWeekStart y2 w2 ↔ (y1 < y2 ∨ (y1 = y2 ∧ w1 < w2))) := by
  constructor
  · intro hlt
    by_contra hno
    push_neg at hno
    have hback : y2 < y1 ∨ (y2 = y1 ∧ w2 < w1) ∨ (y2 = y1 ∧ w2 = w1) := by omega
    rcases hback with hb | hb | hb
    · have := isoWeekStart_lt_of_lex hw3 hw4 hw1 (Or.inl hb)
      omega
    · have := isoWeekStart_lt_of_lex hw3 hw4 hw1 (Or.inr hb)
      omega
    · rw [hb.1, hb.2] at hlt
      omega
  · exact isoWeekStart_lt_of_lex hw1 hw2 hw3

theorem isoWeek1Monday_mod7 (y : Int) : isoWeek1Monday y % 7 = 4 := by
  show (daysFromCivil y 1 4 - (daysFromCivil y 1 4 + 3) % 7) % 7 = 4
  omega

theorem rangeF_core : ∀ n : ℕ, ∀ y1 w1 y2 w2 : Int,
    1000 ≤ y1 → y1 ≤ 9999 → 1000 ≤ y2 → y2 ≤ 9999 →
    1 ≤ w1 → w1 ≤ weeksInYear y1 → 1 ≤ w2 → w2 ≤ weeksInYear y2 →
    ¬(y2 = 9999 ∧ w2 = weeksInYear 9999) →
    isoWeekStart y2 w2 - isoWeekStart y1 w1 = 7 * n →
    ∃ ws, rangeF (n + 1) (formatWeek y1 w1) (formatWeek y2 w2) = some ws ∧
      ws.length = n + 1 ∧ ws.head? = some (formatWeek y1 w1) ∧
      List.Chain' (fun a b => strLt a b = true) ws := by
  intro n
  induction n with
  | zero =>
    intro y1 w1 y2 w2 hy1 hy2 hy3 hy4 hw1 hw2 hw3 hw4 hend hdist
    have h12 : ¬(y1 < y2 ∨ (y1 = y2 ∧ w1 < w2)) := by
      intro hl
      have := isoWeekStart_lt_of_lex hw1 hw2 hw3 hl
      omega
    have h21 : ¬(y2 < y1 ∨ (y2 = y1 ∧ w2 < w1)) := by
      intro hl
      have := isoWeekStart_lt_of_lex hw3 hw4 hw1 hl
      omega
    push_neg at h12 h21
    have hye : y1 = y2 := by omega
    have hwe : w1 = w2 := by omega
    subst hye
    subst hwe
    refine ⟨[formatWeek y1 w1], ?_, rfl, rfl, List.chain'_singleton _⟩
    show rangeF 1 (formatWeek y1 w1) (formatWeek y1 w1) = _
    rw [rangeF, if_pos (strLe_refl _), rangeF]
    have hwlt : w1 ≤ 53 := le_trans hw2 (weeksInYear_le y1)
    rw [nextWeek_formatWeek w1 (by omega)]
    by_cases hroll : w1 + 1 > weeksInYear y1
    · rw [if_pos hroll]
      have hw1last : w1 = weeksInYear y1 := by omega
      have hy1ne : y1 < 9999 := by
        by_contra hcon
        have h9 : y1 = 9999 := by omega
        subst h9
        exact hend ⟨rfl, by omega⟩
      have hle : strLe (formatWeek (y1 + 1) 1) (formatWeek y1 w1) = false := by
        by_cases hb : strLe (formatWeek (y1 + 1) 1) (formatWeek y1 w1) = true
        · rw [strLe_format_iff (by omega) (by omega) (by omega) (by omega)
            (by omega) (by omega) (by omega) (by omega)] at hb
          omega
        · simp only [Bool.not_eq_true] at hb
          exact hb
      rw [hle]
      rfl
    · rw [if_neg hroll]
      have hle : strLe (formatWeek y1 (w1 + 1)) (formatWeek y1 w1) = false := by
        by_cases hb : strLe (formatWeek y1 (w1 + 1)) (formatWeek y1 w1) = true
        · rw [strLe_format_iff (by omega) (by omega) (by omega) (by omega)
            (by omega) (by omega) (by omega) (by omega)] at hb
          omega
        · simp only [Bool.not_eq_true] at hb
          exact hb
      rw [hle]
      rfl
  | succ n ih =>
    intro y1 w1 y2 w2 hy1 hy2 hy3 hy4 hw1 hw2 hw3 hw4 hend hdist
    have hlex : y1 < y2 ∨ (y1 = y2 ∧ w1 < w2) := by
      rw [← isoWeekStart_lt_iff hw1 hw2 hw3 hw4]
      omega
    have hwlt1 : w1 ≤ 53 := le_trans hw2 (weeksInYear_le y1)
    have hwlt2 : w2 ≤ 53 := le_trans hw4 (weeksInYear_le y2)
    have hle : strLe (formatWeek y1 w1) (formatWeek y2 w2) = true := by
      rw [strLe_format_iff hy1 hy2 hy3 hy4 (by omega) (by omega) (by omega) (by omega)]
      rcases hlex with h | h
      · exact Or.inl h
      · exact Or.inr ⟨h.1, by omega⟩
    by_cases hroll : w1 + 1 > weeksInYear y1
    · have hw1last : w1 = weeksInYear y1 := by omega
      have hy1ne : y1 < 9999 := by
        by_contra hcon
        have h9 : y1 = 9999 := by omega
        subst h9
        rcases hlex with hc | hc
        · omega
        · have h92 : (9999 : Int) = y2 := hc.1
          subst h92
          omega
      have hstep := weeksStep y1
      have hdist2 : isoWeekStart y2 w2 - isoWeekStart (y1 + 1) 1 = 7 * n := by
        simp only [isoWeekStart] at hdist ⊢
        omega
      obtain ⟨ws, hws, hlen, hhead, hchain⟩ := ih (y1 + 1) 1 y2 w2
        (by omega) (by omega) hy3 hy4 (by omega)
        (by have := weeksInYear_ge (y1 + 1); omega) hw3 hw4 hend hdist2
      refine ⟨formatWeek y1 w1 :: ws, ?_, by simp [hlen], rfl, ?_⟩
      · show rangeF (n + 1 + 1) _ _ = _
        rw [rangeF, if_pos hle, nextWeek_formatWeek w1 (by omega), if_pos hroll, hws]
        rfl
      · rw [List.chain'_cons']
        refine ⟨?_, hchain⟩
        intro b hb
        rw [hhead] at hb
        simp only [Option.mem_def, Option.some.injEq] at hb
        subst hb
        rw [strLt_format_iff hy1 hy2 (by omega) (by omega)
          (by omega) (by omega) (by omega) (by omega)]
        exact Or.inl (by omega)
    · have hdist2 : isoWeekStart y2 w2 - isoWeekStart y1 (w1 + 1) = 7 * n := by
        simp only [isoWeekStart] at hdist ⊢
        omega
      obtain ⟨ws, hws, hlen, hhead, hchain⟩ := ih y1 (w1 + 1) y2 w2
        hy1 hy2 hy3 hy4 (by omega) (by omega) hw3 hw4 hend hdist2
      refine ⟨formatWeek y1 w1 :: ws, ?_, by simp [hlen], rfl, ?_⟩
      · show rangeF (n + 1 + 1) _ _ = _
        rw [rangeF, if_pos hle, nextWeek_formatWeek w1 (by omega), if_neg hroll, hws]
        rfl
      · rw [List.chain'_cons']
        refine ⟨?_, hchain⟩
        intro b hb
        rw [hhead] at hb
        simp only [Option.mem_def, Option.some.injEq] at hb
        subst hb
        rw [strLt_format_iff hy1 hy2 hy1 hy2
          (by omega) (by omega) (by omega) (by omega)]
        exact Or.inr ⟨rfl, by omega⟩

theorem sortPass_length : ∀ (x : UserStats) (ys : List UserStats),
    (sortPass x ys).2.length = ys.length := by
  intro x ys
  induction ys generalizing x with
  | nil => rfl
  | cons y ys ih =>
    rw [sortPass]
    split
    · simp [ih y]
    · simp [ih x]

theorem sortPass_perm : ∀ (x : UserStats) (ys : List UserStats),
    List.Perm ((sortPass x ys).1 :: (sortPass x ys).2) (x :: ys) := by
  intro x ys
  induction ys generalizing x with
  | nil => exact List.Perm.refl _
  | cons y ys ih =>
    rw [sortPass]
    split
    · dsimp only
      refine List.Perm.trans (List.Perm.swap x (sortPass y ys).1 (sortPass y ys).2) ?_
      exact (ih y).cons x
    · dsimp only
      refine List.Perm.trans (List.Perm.swap y (sortPass x ys).1 (sortPass x ys).2) ?_
      refine List.Perm.trans ((ih x).cons y) ?_
      exact List.Perm.swap x y ys

theorem sortPass_max : ∀ (x : UserStats) (ys : List UserStats),
    x.commits ≤ (sortPass x ys).1.commits ∧
      ∀ z ∈ (sortPass x ys).2, z.commits ≤ (sortPass x ys).1.commits := by
  intro x ys
  induction ys generalizing x with
  | nil =>
    refine ⟨le_refl _, ?_⟩
    intro z hz
    exact absurd hz (List.not_mem_nil z)
  | cons y ys ih =>
    rw [sortPass]
    split
    · rename_i hlt
      dsimp only
      obtain ⟨h1, h2⟩ := ih y
      refine ⟨by omega, ?_⟩
      intro z hz
      simp only [List.mem_cons] at hz
      rcases hz with hz | hz
      · subst hz; omega
      · exact h2 z hz
    · rename_i hlt
      dsimp only
      obtain ⟨h1, h2⟩ := ih x
      refine ⟨h1, ?_⟩
      intro z hz
      simp only [List.mem_cons] at hz
      rcases hz with hz | hz
      · subst hz; omega
      · exact h2 z hz

theorem sortUsersAux_spec : ∀ (fuel : Nat) (l : List UserStats), l.length ≤ fuel →
    List.Pairwise (fun a b => b.commits ≤ a.commits) (sortUsersAux fuel l) ∧
      List.Perm (sortUsersAux fuel l) l := by
  intro fuel
  induction fuel with
  | zero =>
    intro l hl
    have : l = [] := List.eq_nil_of_length_eq_zero (by omega)
    subst this
    exact ⟨List.Pairwise.nil, List.Perm.refl _⟩
  | succ fuel ih =>
    intro l hl
    cases l with
    | nil => exact ⟨List.Pairwise.nil, List.Perm.refl _⟩
    | cons x xs =>
      rw [sortUsersAux]
      have hlen : (sortPass x xs).2.length ≤ fuel := by
        rw [sortPass_length]
        simp only [List.length_cons] at hl
        omega
      obtain ⟨hsorted, hperm⟩ := ih (sortPass x xs).2 hlen
      have hperm2 : List.Perm ((sortPass x xs).1 :: sortUsersAux fuel (sortPass x xs).2) (x :: xs) :=
        (hperm.cons (sortPass x xs).1).trans (sortPass_perm x xs)
      refine ⟨?_, hperm2⟩
      rw [List.pairwise_cons]
      refine ⟨?_, hsorted⟩
      intro z hz
      have hz2 : z ∈ (sortPass x xs).2 := hperm.mem_iff.mp hz
      exact (sortPass_max x xs).2 z hz2

theorem sortUsers_spec (l : List UserStats) :
    List.Pairwise (fun a b => b.commits ≤ a.commits) (sortUsers l) ∧
      List.Perm (sortUsers l) l :=
  sortUsersAux_spec l.length l (le_refl _)

/-- The invariant every entry of the fetched user map satisfies. -/
def goodStat (s : WeekUserStat) : Prop :=
  1 ≤ s.commits ∧ s.added = 0 ∧ s.removed = 0

theorem bumpUser_inv : ∀ (users : List (String × WeekUserStat)) (login : String),
    (∀ p ∈ users, goodStat p.2) → ∀ p ∈ bumpUser users login, goodStat p.2 := by
  intro users login hinv
  induction users with
  | nil =>
    intro p hp
    simp only [bumpUser, List.mem_singleton] at hp
    subst hp
    exact ⟨by norm_num, rfl, rfl⟩
  | cons u rest ih =>
    intro p hp
    rw [bumpUser] at hp
    split at hp
    · simp only [List.mem_cons] at hp
      rcases hp with hp | hp
      · subst hp
        obtain ⟨h1, h2, h3⟩ := hinv u (List.mem_cons_self u rest)
        refine ⟨?_, ?_, ?_⟩ <;> dsimp only
        · omega
        · exact h2
        · exact h3
      · exact hinv p (List.mem_cons_of_mem u hp)
    · simp only [List.mem_cons] at hp
      rcases hp with hp | hp
      · subst hp
        exact hinv u (List.mem_cons_self u rest)
      · exact ih (fun q hq => hinv q (List.mem_cons_of_mem u hq)) p hp

theorem commitStep_inv (users : List (String × WeekUserStat)) (c : GoCommit)
    (hinv : ∀ p ∈ users, goodStat p.2) : ∀ p ∈ commitStep users c, goodStat p.2 := by
  rw [commitStep]
  split
  · exact hinv
  · split
    · exact hinv
    · exact bumpUser_inv users _ hinv

theorem foldl_commitStep_inv : ∀ (commits : List GoCommit) (users : List (String × WeekUserStat)),
    (∀ p ∈ users, goodStat p.2) → ∀ p ∈ commits.foldl commitStep users, goodStat p.2 := by
  intro commits
  induction commits with
  | nil => intro users hinv; exact hinv
  | cons c cs ih =>
    intro users hinv
    rw [List.foldl_cons]
    exact ih (commitStep users c) (commitStep_inv users c hinv)

theorem buildWeekUsers_inv (commits : List GoCommit) :
    ∀ p ∈ buildWeekUsers commits, goodStat p.2 := by
  apply foldl_commitStep_inv
  intro p hp
  exact absurd hp (List.not_mem_nil p)

theorem commitStep_skip {c : GoCommit} (h : hasAuthor c = false)
    (users : List (String × WeekUserStat)) : commitStep users c = users := by
  rw [commitStep]
  rw [hasAuthor] at h
  split
  · rfl
  · rename_i login heq
    rw [heq] at h
    simp only [Bool.not_eq_false', beq_iff_eq] at h
    rw [if_pos h]

theorem foldl_commitStep_filter : ∀ (commits : List GoCommit) (users : List (String × WeekUserStat)),
    commits.foldl commitStep users = (commits.filter hasAuthor).foldl commitStep users := by
  intro commits
  induction commits with
  | nil => intro users; rfl
  | cons c cs ih =>
    intro users
    rw [List.foldl_cons, List.filter_cons]
    by_cases hc : hasAuthor c = true
    · rw [if_pos hc, List.foldl_cons, ih]
    · simp only [Bool.not_eq_true] at hc
      rw [if_neg (by simp [hc]), commitStep_skip hc, ih]

theorem buildWeekUsers_filter (commits : List GoCommit) :
    buildWeekUsers commits = buildWeekUsers (commits.filter hasAuthor) :=
  foldl_commitStep_filter commits []

theorem skipSpaces_mem {cs : List Char} {c : Char} (h : c ∈ skipSpaces cs) : c ∈ cs :=
  (List.dropWhile_sublist isSpaceChar).mem h

theorem takeDigitsAux_mem : ∀ (cs : List Char) (acc : Nat) (c : Char),
    c ∈ (takeDigitsAux cs acc).2 → c ∈ cs := by
  intro cs
  induction cs with
  | nil => intro acc c hc; exact absurd hc (List.not_mem_nil c)
  | cons d rest ih =>
    intro acc c hc
    rw [takeDigitsAux] at hc
    split at hc
    · exact List.mem_cons_of_mem d (ih _ c hc)
    · exact hc

theorem scanInt_mem {cs r : List Char} {v : Int} (h : scanInt cs = some (v, r)) :
    ∀ c ∈ r, c ∈ cs := by
  intro c hc
  unfold scanInt at h
  cases hskip : skipSpaces cs with
  | nil =>
    simp only [hskip] at h
    exact absurd h (by simp)
  | cons d rest =>
    simp only [hskip] at h
    by_cases h1 : d = '-'
    · rw [if_pos h1] at h
      cases rest with
      | nil => exact absurd h (by simp)
      | cons e rest2 =>
        dsimp only at h
        by_cases h2 : isDigitChar e = true
        · rw [if_pos h2] at h
          simp only [Option.some.injEq, Prod.mk.injEq] at h
          rw [← h.2] at hc
          have hmem := takeDigitsAux_mem (e :: rest2) 0 c hc
          exact skipSpaces_mem (by rw [hskip]; exact List.mem_cons_of_mem d hmem)
        · rw [if_neg h2] at h
          exact absurd h (by simp)
    · rw [if_neg h1] at h
      by_cases h2 : d = '+'
      · rw [if_pos h2] at h
        cases rest with
        | nil => exact absurd h (by simp)
        | cons e rest2 =>
          dsimp only at h
          by_cases h3 : isDigitChar e = true
          · rw [if_pos h3] at h
            simp only [Option.some.injEq, Prod.mk.injEq] at h
            rw [← h.2] at hc
            have hmem := takeDigitsAux_mem (e :: rest2) 0 c hc
            exact skipSpaces_mem (by rw [hskip]; exact List.mem_cons_of_mem d hmem)
          · rw [if_neg h3] at h
            exact absurd h (by simp)
      · rw [if_neg h2] at h
        by_cases h3 : isDigitChar d = true
        · rw [if_pos h3] at h
          simp only [Option.some.injEq, Prod.mk.injEq] at h
          rw [← h.2] at hc
          have hmem := takeDigitsAux_mem (d :: rest) 0 c hc
          exact skipSpaces_mem (by rw [hskip]; exact hmem)
        · rw [if_neg h3] at h
          exact absurd h (by simp)

theorem scanLit_eq {ch : Char} {cs r : List Char} (h : scanLit ch cs = some r) :
    cs = ch :: r := by
  cases cs with
  | nil => exact absurd h (by simp [scanLit])
  | cons d rest =>
    rw [scanLit] at h
    split at h
    · rename_i hd
      simp only [Option.some.injEq] at h
      rw [hd, h]
    · exact absurd h (by simp)

theorem scanWeek_noW {s : String} (h : ∀ c ∈ s.data, c ≠ 'W') :
    ∃ y, scanWeek s = (y, 0, false) := by
  unfold scanWeek
  cases hscan : scanInt s.data with
  | none => exact ⟨0, by simp [hscan]⟩
  | some p =>
    obtain ⟨y, r1⟩ := p
    refine ⟨y, ?_⟩
    simp only [hscan]
    cases hlit : scanLit '-' r1 with
    | none => simp [hlit]
    | some r2 =>
      simp only [hlit]
      cases hlit2 : scanLit 'W' r2 with
      | none => simp [hlit2]
      | some r3 =>
        exfalso
        have hr2 : r2 = 'W' :: r3 := scanLit_eq hlit2
        have hw1 : 'W' ∈ r2 := by rw [hr2]; exact List.mem_cons_self _ _
        have hr1 : r1 = '-' :: r2 := scanLit_eq hlit
        have hw2 : 'W' ∈ r1 := by rw [hr1]; exact List.mem_cons_of_mem _ hw1
        have hw3 : 'W' ∈ s.data := scanInt_mem hscan _ hw2
        exact h 'W' hw3 rfl

theorem nextWeek_of_scanFail {s : String} {y : Int} (h : scanWeek s = (y, 0, false)) :
    nextWeek s = formatWeek y 1 := by
  unfold nextWeek
  rw [h]
  dsimp only
  have := weeksInYear_ge y
  rw [if_neg (by omega)]
  norm_num

/-- C5: for every repository, week, upstream response and fetch timestamp,
every contributor entry in the record produced by `fetchWeekFromGitHub` has
`Added = 0` and `Removed = 0`: only commit counts are summed, and the
line-added/line-removed totals are never populated. -/
theorem C5_fetch_no_line_counts (repo week : String) (response : Option (List GoCommit))
    (fetchedAt : String) (stats : WeeklyRepoStats)
    (hfetch : fetchWeekFromGitHub repo week response fetchedAt = some stats) :
    ∀ p ∈ stats.users, p.2.added = 0 ∧ p.2.removed = 0 := by
  intro p hp
  unfold fetchWeekFromGitHub at hfetch
  cases response with
  | none => exact absurd hfetch (by simp)
  | some commits =>
    simp only [Option.some.injEq] at hfetch
    rw [← hfetch] at hp
    dsimp only at hp
    have hg := buildWeekUsers_inv commits p hp
    exact ⟨hg.2.1, hg.2.2⟩

/-- Witness for C5 at a concrete fetch of one commit by "alice". -/
theorem C5_fetch_no_line_counts_witness :
    fetchWeekFromGitHub "acme/app" "2026-W05" (some [⟨"s1", some "alice"⟩]) "t"
        = some ⟨"2026-W05", "acme/app", [("alice", ⟨1, 0, 0⟩)], "t"⟩ ∧
      (("alice", (⟨1, 0, 0⟩ : WeekUserStat)).2.added = 0
        ∧ ("alice", (⟨1, 0, 0⟩ : WeekUserStat)).2.removed = 0) := by
  refine ⟨by decide, ?_⟩
  exact C5_fetch_no_line_counts "acme/app" "2026-W05" (some [⟨"s1", some "alice"⟩]) "t"
    ⟨"2026-W05", "acme/app", [("alice", ⟨1, 0, 0⟩)], "t"⟩ (by decide)
    ("alice", ⟨1, 0, 0⟩) (by decide)

/-- C6 (amended): the exchange sort of `handleGetStats` returns a list
sorted by commit count descending and a permutation of its input, but the
sort is not stable (see the counterexample). -/
theorem C6_sort_descending (l : List UserStats) :
    List.Pairwise (fun a b => b.commits ≤ a.commits) (sortUsers l) ∧
      List.Perm (sortUsers l) l :=
  sortUsers_spec l

/-- C6 counterexample: users "a" and "b" tie at 2 commits and are
discovered in the order a, b, yet the sort emits b before a — the claimed
stability fails. -/
theorem C6_counterexample :
    sortUsers [⟨"a", "", "a", 2, 0, 0, []⟩, ⟨"b", "", "b", 2, 0, 0, []⟩,
        ⟨"c", "", "c", 3, 0, 0, []⟩]
      = [⟨"c", "", "c", 3, 0, 0, []⟩, ⟨"b", "", "b", 2, 0, 0, []⟩,
        ⟨"a", "", "a", 2, 0, 0, []⟩] := by decide

/-- C7 (amended): malformed week labels are not rejected: when the label
contains no "W" at all, the scan matches fewer than both verbs (the ok flag
is false and the week variable keeps its zero value), yet `nextWeek`
silently yields the label of week 1 of whatever year prefix was scanned
instead of reporting a failure. -/
theorem C7_scan_failure_ignored (s : String) (h : ∀ c ∈ s.data, c ≠ 'W') :
    ∃ y, scanWeek s = (y, 0, false) ∧ nextWeek s = formatWeek y 1 := by
  obtain ⟨y, hy⟩ := scanWeek_noW h
  exact ⟨y, hy, nextWeek_of_scanFail hy⟩

/-- Witness for C7 at the malformed input "garbage". -/
theorem C7_scan_failure_ignored_witness :
    (∀ c ∈ ("garbage" : String).data, c ≠ 'W') ∧
      ∃ y, scanWeek "garbage" = (y, 0, false) ∧ nextWeek "garbage" = formatWeek y 1 :=
  ⟨by decide, C7_scan_failure_ignored "garbage" (by decide)⟩

/-- C7 counterexample: the parse of the malformed label "garbage" does not
report any failure to the caller: `nextWeek` silently yields "0-W01" from
the zero-valued scan results. -/
theorem C7_counterexample :
    scanWeek "garbage" = (0, 0, false) ∧ nextWeek "garbage" = "0-W01" := by decide

/-- C10: commits whose author field is absent or whose author login is
empty are skipped by `fetchWeekFromGitHub`: the produced user map equals
the one computed from the filtered commit list, and every entry of the map
has at least one commit. -/
theorem C10_skip_authorless (repo week : String) (commits : List GoCommit)
    (fetchedAt : String) (stats : WeeklyRepoStats)
    (hfetch : fetchWeekFromGitHub repo week (some commits) fetchedAt = some stats) :
    stats.users = buildWeekUsers (commits.filter hasAuthor) ∧
      ∀ p ∈ stats.users, 1 ≤ p.2.commits := by
  unfold fetchWeekFromGitHub at hfetch
  simp only [Option.some.injEq] at hfetch
  rw [← hfetch]
  constructor
  · dsimp only
    exact buildWeekUsers_filter commits
  · intro p hp
    dsimp only at hp
    exact (buildWeekUsers_inv commits p hp).1

/-- Witness for C10 at a list with a nil author and an empty login. -/
theorem C10_skip_authorless_witness :
    (⟨"2026-W05", "acme/app", [("alice", ⟨1, 0, 0⟩)], "t"⟩ : WeeklyRepoStats).users
        = buildWeekUsers ([⟨"s1", some "alice"⟩, ⟨"s2", none⟩, ⟨"s3", some ""⟩].filter hasAuthor) ∧
      ∀ p ∈ (⟨"2026-W05", "acme/app", [("alice", ⟨1, 0, 0⟩)], "t"⟩ : WeeklyRepoStats).users,
        1 ≤ p.2.commits :=
  C10_skip_authorless "acme/app" "2026-W05" [⟨"s1", some "alice"⟩, ⟨"s2", none⟩, ⟨"s3", some ""⟩]
    "t" ⟨"2026-W05", "acme/app", [("alice", ⟨1, 0, 0⟩)], "t"⟩ (by decide)

/-- C1 (amended): when the caller omits the range, `handleGetStats`
defaults weekStart to the plain sprintf of `currentWeek - 4` with no year
rollback: the label parses back to week number `currentWeek - 4`, which is
a valid ISO week exactly when the current week number is at least 5; for
current weeks 1 through 4 the label carries a week number of zero or less
and is not a valid ISO week. -/
theorem C1_default_week_start (cy cw : Int) (hy : 0 ≤ cy) (h1 : 1 ≤ cw)
    (h2 : cw ≤ weeksInYear cy) :
    scanWeek (defaultedRange "" "" cy cw).1 = (cy, cw - 4, true) ∧
      (5 ≤ cw → validWeek cy (cw - 4)) ∧
      (cw ≤ 4 → cw - 4 ≤ 0) := by
  have hdef : defaultedRange "" "" cy cw = (formatWeek cy (cw - 4), formatWeek cy cw) := by
    rw [defaultedRange, if_pos (Or.inl rfl)]
  refine ⟨?_, ?_, ?_⟩
  · rw [hdef]
    exact scanWeek_formatWeek (cw - 4) hy
  · intro h5
    exact ⟨by omega, by omega⟩
  · intro h4
    omega

/-- Witness for C1 at current week (2026, 30). -/
theorem C1_default_week_start_witness :
    scanWeek (defaultedRange "" "" 2026 30).1 = (2026, 30 - 4, true) ∧
      (5 ≤ (30 : Int) → validWeek 2026 (30 - 4)) := by
  have h := C1_default_week_start 2026 30 (by norm_num) (by norm_num) (by decide)
  exact ⟨h.1, h.2.1⟩

/-- C1 counterexample: with current week (2026, 2) the defaulted weekStart
label is "2026-W-2": it parses back to week number -2 — not in 1..53 — and
the year is not rolled back to 2025. -/
theorem C1_counterexample :
    (defaultedRange "" "" 2026 2).1 = "2026-W-2" ∧
      scanWeek "2026-W-2" = (2026, -2, true) ∧ ¬(1 ≤ (-2 : Int)) := by decide

/-- C2 (amended): `weekToDate` returns the Monday on or before Jan 1 of
the scanned year plus `7*(week-1)` days; this equals the ISO-8601 Monday of
week `w` exactly when Jan 1 falls on Monday through Thursday, and is seven
days early when Jan 1 falls on Friday, Saturday or Sunday. -/
theorem C2_weekToDate (y w : Int) (hy : 0 ≤ y) :
    weekToDate (formatWeek y w)
      = (if 1 ≤ goWeekday (daysFromCivil y 1 1) ∧ goWeekday (daysFromCivil y 1 1) ≤ 4
          then isoWeek1Monday y
          else isoWeek1Monday y - 7) + 7 * (w - 1) := by
  unfold weekToDate
  rw [scanWeek_formatWeek w hy]
  dsimp only
  simp only [isoWeek1Monday, goWeekday]
  have hj : daysFromCivil y 1 4 = daysFromCivil y 1 1 + 3 := by
    unfold daysFromCivil dfcDoy
    omega
  rw [hj]
  generalize daysFromCivil y 1 1 = z
  split_ifs <;> omega

/-- Witness for C2 at year 2021 week 1. -/
theorem C2_weekToDate_witness :
    weekToDate (formatWeek 2021 1)
      = (if 1 ≤ goWeekday (daysFromCivil 2021 1 1) ∧ goWeekday (daysFromCivil 2021 1 1) ≤ 4
          then isoWeek1Monday 2021
          else isoWeek1Monday 2021 - 7) + 7 * (1 - 1) :=
  C2_weekToDate 2021 1 (by norm_num)

/-- C2 counterexample: Jan 1, 2021 is a Friday; the ISO week 1 of 2021
begins on Monday Jan 4, 2021, but `weekToDate` returns Monday Dec 28,
2020 — one week early. -/
theorem C2_counterexample :
    weekToDate "2021-W01" = daysFromCivil 2020 12 28 ∧
      isoWeek1Monday 2021 = daysFromCivil 2021 1 4 ∧
      weekToDate "2021-W01" ≠ isoWeek1Monday 2021 := by decide

/-- C3 (amended): when a login is mapped but the Mattermost lookup of the
mapped id fails, the aggregated entry falls back to the raw login as display
name and leaves the username empty, but the id field still carries the
mapped id — the failed mapped id is emitted in the result. -/
theorem C3_identity_fallback (mappings : String → String) (getUser : String → Option MMUser)
    (ghLogin : String) (commits added removed : Int) (byRepo : List (String × Int))
    (hmap : mappings ghLogin ≠ "") (hfail : getUser (mappings ghLogin) = none) :
    (buildUserStat mappings getUser ghLogin commits added removed byRepo).name = ghLogin ∧
      (buildUserStat mappings getUser ghLogin commits added removed byRepo).mmUsername = "" ∧
      (buildUserStat mappings getUser ghLogin commits added removed byRepo).mmUserID
        = mappings ghLogin := by
  unfold buildUserStat
  dsimp only
  rw [if_pos hmap, hfail]
  exact ⟨rfl, rfl, rfl⟩

/-- Witness for C3 at the mapping alice ↦ u1 with a failing lookup. -/
theorem C3_identity_fallback_witness :
    ((fun l => if l = "alice" then "u1" else "") "alice" ≠ "") ∧
      (buildUserStat (fun l => if l = "alice" then "u1" else "") (fun _ => none)
          "alice" 3 0 0 []).name = "alice" ∧
      (buildUserStat (fun l => if l = "alice" then "u1" else "") (fun _ => none)
          "alice" 3 0 0 []).mmUserID
        = (fun l => if l = "alice" then "u1" else "") "alice" := by
  have h := C3_identity_fallback (fun l => if l = "alice" then "u1" else "") (fun _ => none)
    "alice" 3 0 0 [] (by decide) rfl
  exact ⟨by decide, h.1, h.2.2⟩

/-- C3 counterexample: with mapping alice ↦ u1 and a failing user lookup,
the emitted entry has id "u1", not the empty id the claim requires. -/
theorem C3_counterexample :
    buildUserStat (fun l => if l = "alice" then "u1" else "") (fun _ => none) "alice" 3 0 0 []
        = ⟨"u1", "", "alice", 3, 0, 0, []⟩ ∧ ("u1" : String) ≠ "" := by decide

/-- C4 (amended): a cache write of `getWeeklyStats`, as invoked by
`handleGetStats` with `isCurrentWeek := week == currentWeekStr`, happens
exactly under the gh_stats key for the requested week, only when the
requested week's label differs from the current week's label, and only for
a freshly fetched record with at least one contributor (each carrying at
least one commit, so the total is nonzero); a requested week whose label
sorts after the current week's label can still be cached (see the
counterexample), so "strictly before the current week" does not hold. -/
theorem C4_cache_write (repo week currentWeekStr : String)
    (cached : Option WeeklyRepoStats) (response : Option (List GoCommit))
    (fetchedAt : String) (key : String) (rec : WeeklyRepoStats)
    (hput : (getWeeklyStats repo week (week == currentWeekStr) cached response fetchedAt).2
      = some (key, rec)) :
    week ≠ currentWeekStr ∧ key = cacheKey repo week ∧ rec.users ≠ [] ∧
      ∀ p ∈ rec.users, 1 ≤ p.2.commits := by
  cases hb : (week == currentWeekStr) with
  | true =>
    exfalso
    rw [hb] at hput
    unfold getWeeklyStats fetchWeekFromGitHub at hput
    cases cached with
    | some c =>
      cases response with
      | none =>
        dsimp only at hput
        exact absurd hput (by simp)
      | some commits =>
        dsimp only at hput
        rw [if_neg (by simp)] at hput
        exact absurd hput (by simp)
    | none =>
      cases response with
      | none =>
        dsimp only at hput
        exact absurd hput (by simp)
      | some commits =>
        dsimp only at hput
        rw [if_neg (by simp)] at hput
        exact absurd hput (by simp)
  | false =>
    have hne : week ≠ currentWeekStr := by
      intro heq
      rw [heq] at hb
      simp at hb
    rw [hb] at hput
    unfold getWeeklyStats fetchWeekFromGitHub at hput
    cases cached with
    | some c =>
      dsimp only at hput
      exact absurd hput (by simp)
    | none =>
      cases response with
      | none =>
        dsimp only at hput
        exact absurd hput (by simp)
      | some commits =>
        dsimp only at hput
        by_cases husers : buildWeekUsers commits ≠ []
        · rw [if_pos ⟨rfl, husers⟩] at hput
          simp only [Option.some.injEq, Prod.mk.injEq] at hput
          obtain ⟨hkey, hrec⟩ := hput
          refine ⟨hne, hkey.symm, ?_, ?_⟩
          · rw [← hrec]
            exact husers
          · intro p hp
            rw [← hrec] at hp
            dsimp only at hp
            exact (buildWeekUsers_inv commits p hp).1
        · rw [if_neg (by intro hcon; exact husers hcon.2)] at hput
          exact absurd hput (by simp)

/-- Witness for C4 at a concrete non-current week fetch with one commit. -/
theorem C4_cache_write_witness :
    ("2026-W20" : String) ≠ "2026-W30" ∧
      "gh_stats_acme_app_2026-W20" = cacheKey "acme/app" "2026-W20" ∧
      (⟨"2026-W20", "acme/app", [("alice", ⟨1, 0, 0⟩)], "t"⟩ : WeeklyRepoStats).users ≠ [] ∧
      ∀ p ∈ (⟨"2026-W20", "acme/app", [("alice", ⟨1, 0, 0⟩)], "t"⟩ : WeeklyRepoStats).users,
        1 ≤ p.2.commits :=
  C4_cache_write "acme/app" "2026-W20" "2026-W30" none (some [⟨"s1", some "alice"⟩]) "t"
    "gh_stats_acme_app_2026-W20" ⟨"2026-W20", "acme/app", [("alice", ⟨1, 0, 0⟩)], "t"⟩
    (by decide)

/-- C4 counterexample: the requested week "2027-W01" sorts after the
current week "2026-W30", yet the cache write is invoked for it — the write
is not restricted to weeks strictly before the current week. -/
theorem C4_counterexample :
    strLt "2026-W30" "2027-W01" = true ∧
      (getWeeklyStats "acme/app" "2027-W01" (("2027-W01" : String) == "2026-W30") none
          (some [⟨"abc", some "alice"⟩]) "t").2
        = some ("gh_stats_acme_app_2027-W01",
            ⟨"2027-W01", "acme/app", [("alice", ⟨1, 0, 0⟩)], "t"⟩) := by decide

/-- C8: week labels round-trip: for every ISO week with a 4-digit year and
week number 1..53, scanning the formatted label yields the year, the week
and a successful match, and re-formatting the scanned pair reproduces the
label. -/
theorem C8_label_roundtrip (y w : Int) (h1 : 1000 ≤ y) (h2 : y ≤ 9999)
    (h3 : 1 ≤ w) (h4 : w ≤ 53) :
    scanWeek (formatWeek y w) = (y, w, true) ∧
      formatWeek (scanWeek (formatWeek y w)).1 (scanWeek (formatWeek y w)).2.1
        = formatWeek y w := by
  have hs := scanWeek_formatWeek w (show (0 : Int) ≤ y by omega)
  refine ⟨hs, ?_⟩
  rw [hs]

/-- Witness for C8 at the label "2026-W05". -/
theorem C8_label_roundtrip_witness :
    scanWeek (formatWeek 2026 5) = (2026, 5, true) ∧
      formatWeek (scanWeek (formatWeek 2026 5)).1 (scanWeek (formatWeek 2026 5)).2.1
        = formatWeek 2026 5 :=
  C8_label_roundtrip 2026 5 (by norm_num) (by norm_num) (by norm_num) (by norm_num)

/-- C9 (amended): for well-formed labels with 4-digit years and valid week
numbers, as long as the end label is not the last valid week of year 9999,
`getWeeksInRange` terminates: it returns the empty list when start > end in
string order, and otherwise a strictly increasing list whose length is the
calendar week distance (in weeks between the two ISO week Mondays) plus
one; the successor rolls to week 1 of the next year exactly past the last
valid week. At the excluded boundary the string order of labels breaks down
("10000-W01" sorts before "9999-W52") and the loop overruns (see the
counterexample). -/
theorem C9_range_spec (y1 w1 y2 w2 : Int)
    (hy1 : 1000 ≤ y1) (hy2 : y1 ≤ 9999) (hy3 : 1000 ≤ y2) (hy4 : y2 ≤ 9999)
    (hv1 : validWeek y1 w1) (hv2 : validWeek y2 w2)
    (hend : ¬(y2 = 9999 ∧ w2 = weeksInYear 9999)) :
    (strLe (formatWeek y1 w1) (formatWeek y2 w2) = false →
      ∀ fuel, rangeF fuel (formatWeek y1 w1) (formatWeek y2 w2) = some []) ∧
    (strLe (formatWeek y1 w1) (formatWeek y2 w2) = true →
      ∃ n : ℕ, isoWeekStart y2 w2 - isoWeekStart y1 w1 = 7 * n ∧
        ∃ ws, rangeF (n + 1) (formatWeek y1 w1) (formatWeek y2 w2) = some ws ∧
          ws.length = n + 1 ∧ List.Chain' (fun a b => strLt a b = true) ws) ∧
    (w1 = weeksInYear y1 → nextWeek (formatWeek y1 w1) = formatWeek (y1 + 1) 1) ∧
    (w1 < weeksInYear y1 → nextWeek (formatWeek y1 w1) = formatWeek y1 (w1 + 1)) := by
  obtain ⟨hw1, hw2⟩ := hv1
  obtain ⟨hw3, hw4⟩ := hv2
  refine ⟨?_, ?_, ?_, ?_⟩
  · intro hgt fuel
    cases fuel with
    | zero =>
      rw [rangeF, if_neg (by simp [hgt])]
    | succ fuel =>
      rw [rangeF, if_neg (by simp [hgt])]
  · intro hle
    have hlex : y1 < y2 ∨ (y1 = y2 ∧ w1 ≤ w2) := by
      rw [strLe_format_iff hy1 hy2 hy3 hy4 (by omega)
        (by have := weeksInYear_le y1; omega) (by omega)
        (by have := weeksInYear_le y2; omega)] at hle
      exact hle
    have hdist_nonneg : 0 ≤ isoWeekStart y2 w2 - isoWeekStart y1 w1 := by
      rcases hlex with h | ⟨he, hw⟩
      · have := isoWeekStart_lt_of_lex hw1 hw2 hw3 (Or.inl h)
        omega
      · subst he
        simp only [isoWeekStart]
        omega
    have hmod1 := isoWeek1Monday_mod7 y1
    have hmod2 := isoWeek1Monday_mod7 y2
    have hdvd : (isoWeekStart y2 w2 - isoWeekStart y1 w1) % 7 = 0 := by
      simp only [isoWeekStart]
      omega
    refine ⟨((isoWeekStart y2 w2 - isoWeekStart y1 w1) / 7).toNat, by omega, ?_⟩
    obtain ⟨ws, hws, hlen, _, hchain⟩ :=
      rangeF_core ((isoWeekStart y2 w2 - isoWeekStart y1 w1) / 7).toNat y1 w1 y2 w2
        hy1 hy2 hy3 hy4 hw1 hw2 hw3 hw4 hend (by omega)
    exact ⟨ws, hws, hlen, hchain⟩
  · intro hlast
    rw [nextWeek_formatWeek w1 (by omega), if_pos (by omega)]
  · intro hlt
    rw [nextWeek_formatWeek w1 (by omega), if_neg (by omega)]

/-- Witness for C9 over the year boundary 2024-W52 .. 2025-W02. -/
theorem C9_range_spec_witness :
    ∃ n : ℕ, isoWeekStart 2025 2 - isoWeekStart 2024 52 = 7 * n ∧
      ∃ ws, rangeF (n + 1) (formatWeek 2024 52) (formatWeek 2025 2) = some ws ∧
        ws.length = n + 1 ∧ List.Chain' (fun a b => strLt a b = true) ws :=
  ((C9_range_spec 2024 52 2025 2 (by norm_num) (by norm_num) (by norm_num) (by norm_num)
    ⟨by norm_num, by decide⟩ ⟨by norm_num, by decide⟩ (by decide)).2.1) (by decide)

/-- C9 counterexample: with both labels equal to "9999-W52" (a well-formed
label, the last valid week of year 9999) the claimed result has length 1,
so the loop would finish within fuel 2; instead the successor "10000-W01"
still sorts before the end label and the loop keeps running — the sequence
is neither of the claimed length nor strictly increasing. -/
theorem C9_counterexample :
    strLe "9999-W52" "9999-W52" = true ∧
      rangeF 2 "9999-W52" "9999-W52" = none ∧
      nextWeek "9999-W52" = "10000-W01" ∧
      strLt "10000-W01" "9999-W52" = true := by decide
